import Mathlib

/-!
Verification development for a small linear-regression toolkit
(`LinearRegressor` with least-squares and gradient-descent fitting,
`predict`, `evaluate_regression`, and a numpy-style `one_hot_encode`).

The Python source works on numpy arrays of floats (and, for the encoder,
heterogeneous object arrays).  The shallow embedding models float
arithmetic by exact rational arithmetic (`ℚ`), 1D arrays by `List ℚ`,
2D arrays by row-major `List (List ℚ)`, and the encoder's object arrays
by `List (List Obj)` where `Obj` is a numeric-or-string cell.  Python
exceptions are modelled by `Except PyError`.  The library calls
`np.random.rand` inside gradient descent; the embedding takes the raw
draws (values in `[0, 1)`) as explicit arguments.
-/

/-- Python exceptions raised (directly or by numpy) in the source. -/
inductive PyError where
  | valueError (msg : String)
  | indexError (msg : String)
  | linAlgError (msg : String)
  | zeroDivisionError
deriving DecidableEq

/-- Model state of `LinearRegressor.__init__`: both fields start absent
(`None`) and are only ever set together by a successful fit. -/
structure LinearRegressor where
  coefficients : Option (List ℚ)
  intercept : Option ℚ
deriving DecidableEq

/-- `LinearRegressor()` — a freshly constructed, unfitted model. -/
def LinearRegressor.mkNew : LinearRegressor := ⟨none, none⟩

/-- A numpy array argument that may be 1-dimensional or 2-dimensional. -/
inductive NpF where
  | d1 (v : List ℚ)
  | d2 (M : List (List ℚ))

/-- Number of columns of a row-major 2D array (rectangularity is carried
as a hypothesis where it matters). -/
def ncolsQ (A : List (List ℚ)) : ℕ := (A.headD []).length

/-- Dot product of two equal-length vectors. -/
def dotL (a b : List ℚ) : ℚ := (List.zipWith (fun x y => x * y) a b).sum

/-- Transpose of a row-major 2D array. -/
def transposeQ (A : List (List ℚ)) : List (List ℚ) :=
  (List.range (ncolsQ A)).map fun j => A.map fun r => r.getD j 0

/-- Elementwise numpy binary operation with the scalar-broadcast rule for
1D arrays: equal lengths act pointwise, a length-1 operand broadcasts,
anything else raises. -/
def npBroadcast (f : ℚ → ℚ → ℚ) (a b : List ℚ) : Except PyError (List ℚ) :=
  if a.length = b.length then .ok (List.zipWith f a b)
  else if a.length = 1 then .ok (b.map fun x => f (a.headD 0) x)
  else if b.length = 1 then .ok (a.map fun x => f x (b.headD 0))
  else .error (.valueError "operands could not be broadcast together")

/-- Conversion of a row-major list array into a Mathlib matrix (used by
the closed-form path, which is genuine linear algebra in the source). -/
def toMat (n m : ℕ) (A : List (List ℚ)) : Matrix (Fin n) (Fin m) ℚ :=
  Matrix.of fun i j => (A.getD i []).getD j 0

/-- Conversion of a list into a vector. -/
def toVec (n : ℕ) (v : List ℚ) : Fin n → ℚ := fun i => v.getD i 0

/-- `np.linalg.inv`, computed (as numpy does, up to floating point) as the
true inverse: adjugate over determinant.  On a singular matrix the source
raises `LinAlgError`; the caller checks the determinant first. -/
def matInv {k : ℕ} (A : Matrix (Fin k) (Fin k) ℚ) : Matrix (Fin k) (Fin k) ℚ :=
  A.det⁻¹ • A.adjugate

/-- `LinearRegressor.predict` (source lines 112–133): raises
"Model is not yet fitted" when either field is absent, otherwise computes
`intercept + coefficients * X` (1D, elementwise with broadcasting) or
`intercept + X @ coefficients` (2D). -/
def LinearRegressor.predict (model : LinearRegressor) (X : NpF) :
    Except PyError (List ℚ) :=
  match model.coefficients, model.intercept with
  | some c, some b =>
    match X with
    | .d1 v => do
      let p ← npBroadcast (fun x y => x * y) c v
      .ok (p.map fun t => b + t)
    | .d2 M =>
      if M.all fun r => r.length = c.length then
        .ok (M.map fun r => b + dotL r c)
      else .error (.valueError "shapes not aligned")
  | _, _ => .error (.valueError "Model is not yet fitted")

/-- `LinearRegressor.fit_multiple` (source lines 53–75): normal equation
`beta = inv(X^T X) @ X^T @ y`, then `intercept = beta[0]`,
`coefficients = beta[1:]`.  numpy raises on a row-count mismatch between
`X` and `y`, on a singular Gram matrix, and on `beta[0]` when `beta` is
empty. -/
def LinearRegressor.fit_multiple (_model : LinearRegressor)
    (X : List (List ℚ)) (y : List ℚ) : Except PyError LinearRegressor :=
  if y.length = X.length then
    let M := toMat X.length (ncolsQ X) X
    let G := M.transpose * M
    if G.det = 0 then .error (.linAlgError "Singular matrix")
    else
      let beta := (matInv G).mulVec (M.transpose.mulVec (toVec X.length y))
      match List.ofFn beta with
      | [] => .error (.indexError "index 0 is out of bounds")
      | b0 :: rest => .ok ⟨some rest, some b0⟩
  else .error (.valueError "shapes not aligned")

/-- One epoch of the gradient-descent loop body (source lines 96–110):
`predictions = self.predict(X[:, 1:])`, `error = predictions - y`,
gradients scaled by `2/n`, then the two in-place updates.  The `print`
every 100 epochs is an observable side effect outside the return
contract and is not modelled. -/
def gdStep (Xb : List (List ℚ)) (y : List ℚ) (learning_rate : ℚ) (n : ℕ)
    (model : LinearRegressor) : Except PyError LinearRegressor := do
  let Xf := Xb.map fun r => r.drop 1
  let predictions ← model.predict (NpF.d2 Xf)
  let error ← npBroadcast (fun a b => a - b) predictions y
  if n = 0 then .error .zeroDivisionError
  else
    let gradient_intercept := (2 / (n : ℚ)) * error.sum
    let gradient_coefficients :=
      (transposeQ Xf).map fun col => (2 / (n : ℚ)) * dotL col error
    match model.coefficients, model.intercept with
    | some c, some b => do
      let c2 ← npBroadcast (fun cj gj => cj - gj) c
        (gradient_coefficients.map fun gj => learning_rate * gj)
      .ok ⟨some c2, some (b - learning_rate * gradient_intercept)⟩
    | _, _ => .error (.valueError "Model is not yet fitted")

/-- `LinearRegressor.fit_gradient_descent` (source lines 77–110):
initialize `coefficients := np.random.rand(X.shape[1] - 1) * 0.01` and
`intercept := np.random.rand() * 0.01` (the raw draws `rc`, `r0` are in
`[0, 1)`), then run exactly `iterations` epochs of `gdStep`. -/
def LinearRegressor.fit_gradient_descent (_model : LinearRegressor)
    (Xb : List (List ℚ)) (y : List ℚ) (learning_rate : ℚ) (iterations : ℕ)
    (r0 : ℚ) (rc : ℕ → ℚ) : Except PyError LinearRegressor :=
  let n := y.length
  let init : LinearRegressor :=
    ⟨some ((List.range (ncolsQ Xb - 1)).map fun i => rc i * (1 / 100)),
     some (r0 * (1 / 100))⟩
  (List.range iterations).foldlM (fun m _ => gdStep Xb y learning_rate n m) init

/-- Reshape step at the top of `fit` (source lines 41–42): a 1D `X`
becomes a single feature column via `X.reshape(-1, 1)`. -/
def reshaped : NpF → List (List ℚ)
  | .d1 v => v.map fun x => [x]
  | .d2 M => M

/-- `LinearRegressor.fit` (source lines 22–51): validate `method`, reshape
1D input, prepend the bias column of ones with `np.insert(X, 0, 1, axis=1)`,
and dispatch to the chosen algorithm. -/
def LinearRegressor.fit (model : LinearRegressor) (X : NpF) (y : List ℚ)
    (method : String) (learning_rate : ℚ) (iterations : ℕ)
    (r0 : ℚ) (rc : ℕ → ℚ) : Except PyError LinearRegressor :=
  if method ∉ ["least_squares", "gradient_descent"] then
    .error (.valueError
      ("Method " ++ method ++ " not available for training linear regression."))
  else
    let X_with_bias := (reshaped X).map fun r => 1 :: r
    if method = "least_squares" then model.fit_multiple X_with_bias y
    else model.fit_gradient_descent X_with_bias y learning_rate iterations r0 rc

/-- A Python method call `self.fit(...)` as seen by the caller: on a raised
exception the object keeps its prior state (the source's `fit` validates
`method` before touching any field). -/
def LinearRegressor.callFit (model : LinearRegressor) (X : NpF) (y : List ℚ)
    (method : String) (learning_rate : ℚ) (iterations : ℕ)
    (r0 : ℚ) (rc : ℕ → ℚ) : LinearRegressor × Option PyError :=
  match model.fit X y method learning_rate iterations r0 rc with
  | .ok m2 => (m2, none)
  | .error e => (model, some e)

/-- `evaluate_regression` (source lines 136–161).  The arithmetic before
the square root is exact, so it is carried out in `ℚ` and cast to `ℝ`
only for `np.sqrt`; the returned dict is an association list keeping the
source's key order.  Mismatched lengths (numpy would broadcast or raise)
are outside the stated contract; the elementwise operations are modelled
by `zipWith` on the common prefix. -/
noncomputable def evaluate_regression (y_true y_pred : List ℚ) :
    List (String × ℝ) :=
  let n : ℚ := (y_true.length : ℚ)
  let rss : ℚ := (List.zipWith (fun a b => (a - b) ^ 2) y_true y_pred).sum
  let tss : ℚ := (y_true.map fun a => (a - y_true.sum / n) ^ 2).sum
  let r_squared : ℚ := 1 - rss / tss
  let mse : ℚ := 1 / n * (List.zipWith (fun a b => (a - b) ^ 2) y_true y_pred).sum
  let rmse : ℝ := Real.sqrt (mse : ℝ)
  let mae : ℚ := 1 / n * (List.zipWith (fun a b => |a - b|) y_true y_pred).sum
  [("R2", (r_squared : ℝ)), ("RMSE", rmse), ("MAE", (mae : ℝ))]

/-- A cell of the encoder's `dtype=object` array: a number or a string. -/
inductive Obj where
  | num (q : ℚ)
  | str (s : String)
deriving DecidableEq

/-- Python's ordering on the (homogeneously typed) cells, totalised across
the two cell kinds so that `np.unique`'s sort is a function. -/
def Obj.toSum : Obj → (ℚ ⊕ₗ String)
  | .num q => toLex (Sum.inl q)
  | .str s => toLex (Sum.inr s)

theorem Obj.toSum_injective : Function.Injective Obj.toSum := by
  intro a b h
  cases a <;> cases b <;> simp [Obj.toSum, toLex] at h <;> simp [h]

instance : LinearOrder Obj := LinearOrder.lift' Obj.toSum Obj.toSum_injective

/-- Default cell used to express list indexing (`getD`); every access in
the development is guarded by an index bound, so the default is never
the value actually read. -/
def d0 : Obj := Obj.num 0

/-- Column count of the encoder's row-major table. -/
def ncolsO (X : List (List Obj)) : ℕ := (X.headD []).length

/-- Column extraction `X[:, j]` (for an already-normalised index). -/
def colVals (X : List (List Obj)) (j : ℕ) : List Obj :=
  X.map fun r => r.getD j d0

/-- `np.unique`: the distinct values of a 1D array in ascending order. -/
def npUnique (l : List Obj) : List Obj :=
  l.dedup.insertionSort (fun a b => a ≤ b)

/-- numpy integer-index normalisation for an axis of length `len`:
`0 ≤ i < len` is itself, `-len ≤ i < 0` counts from the end, anything
else is out of bounds (`IndexError`). -/
def pyIdx (len : ℕ) (i : ℤ) : Option ℕ :=
  if 0 ≤ i ∧ i < (len : ℤ) then some i.toNat
  else if -(len : ℤ) ≤ i ∧ i < 0 then some (len - (-i).toNat)
  else none

/-- Python slice endpoint: the split position of `l[:i]` / `l[i:]` for a
list of length `len` (negative endpoints count from the end, and the
result is clamped into `[0, len]`). -/
def pySlice (len : ℕ) (i : ℤ) : ℕ :=
  if 0 ≤ i then min i.toNat len else len - min (-i).toNat len

/-- One row of `one_hots`: the indicator of `e` against each unique value. -/
def oneHotsRow (unique_values : List Obj) (e : Obj) : List Obj :=
  unique_values.map fun v => if e = v then Obj.num 1 else Obj.num 0

/-- The body of `one_hot_encode`'s loop for one designated column
(source lines 182–191): extract the column, take its sorted unique
values (dropping the first when `drop_first`), build the indicator rows,
delete the original column and splice the indicators back in with
`np.hstack((X[:, :index], one_hots, X[:, index:]))`.  The signed `index`
is normalised numpy-style for the extraction and deletion, while the
splice reuses the raw signed index as a Python slice endpoint on the
already-deleted array — exactly as the source does. -/
def encodeStep (drop_first : Bool) (X : List (List Obj)) (index : ℤ) :
    Except PyError (List (List Obj)) :=
  match pyIdx (ncolsO X) index with
  | none => .error (.indexError "index out of bounds")
  | some j =>
    let categorical_column := colVals X j
    let unique_values := npUnique categorical_column
    let unique_values := if drop_first then unique_values.tail else unique_values
    let one_hots := categorical_column.map (oneHotsRow unique_values)
    let X_deleted := X.map fun r => r.eraseIdx j
    .ok (List.zipWith
      (fun r oh => r.take (pySlice r.length index) ++ oh ++ r.drop (pySlice r.length index))
      X_deleted one_hots)

/-- Descending order on signed indices, as in
`sorted(categorical_indices, reverse=True)`. -/
def descZ (a b : ℤ) : Prop := b ≤ a

instance : DecidableRel descZ := fun a b => inferInstanceAs (Decidable (b ≤ a))

instance : IsTotal ℤ descZ := ⟨fun a b => le_total b a⟩

instance : IsTrans ℤ descZ := ⟨fun _ _ _ h1 h2 => le_trans h2 h1⟩

instance : IsAntisymm ℤ descZ := ⟨fun _ _ h1 h2 => le_antisymm h2 h1⟩

/-- `one_hot_encode` (source lines 166–193): process the designated
column indices in descending order, applying `encodeStep` to each.  The
input table is never mutated (`np.array(X, dtype=object)` copies); the
function returns the transformed table. -/
def one_hot_encode (X : List (List Obj)) (categorical_indices : List ℤ)
    (drop_first : Bool) : Except PyError (List (List Obj)) :=
  (categorical_indices.insertionSort descZ).foldlM
    (fun T index => encodeStep drop_first T index) X

/-! ### Claim-side specification definitions

The definitions below are written from the specification's wording and
are compared with the source-derived definitions above by the theorems;
they are not used by the embedded code. -/

/-- The bias-augmented design matrix of the spec: a constant column of
ones prepended to the feature matrix. -/
def biasMat (rows : List (List ℚ)) :
    Matrix (Fin rows.length) (Fin (ncolsQ rows + 1)) ℚ :=
  Matrix.of fun i j =>
    Fin.cases 1 (fun j' => toMat rows.length (ncolsQ rows) rows i j') j

/-- The spec's closed-form coefficient vector
`beta = (X_biasᵀ X_bias)⁻¹ X_biasᵀ y` (Mathlib's matrix inverse). -/
noncomputable def lsBeta (rows : List (List ℚ)) (y : List ℚ) :
    Fin (ncolsQ rows + 1) → ℚ :=
  ((biasMat rows).transpose * biasMat rows)⁻¹.mulVec
    ((biasMat rows).transpose.mulVec (toVec rows.length y))

/-- One full-batch gradient-descent update on `(intercept, coefficients)`
as the spec states it: `error = (intercept + X·coefficients) − y` over the
raw feature columns, `intercept −= lr·(2/n)·Σ error`, and
`coefficients −= lr·(2/n)·Xᵀ·error`. -/
def gdSpecStep (M : List (List ℚ)) (y : List ℚ) (learning_rate : ℚ) :
    ℚ × List ℚ → ℚ × List ℚ :=
  fun s =>
    let n : ℚ := (y.length : ℚ)
    let err : List ℚ := List.zipWith (fun row yi => (s.1 + dotL row s.2) - yi) M y
    (s.1 - learning_rate * (2 / n * err.sum),
     List.zipWith (fun cj col => cj - learning_rate * (2 / n * dotL col err))
       s.2 (transposeQ M))

/-- The retained unique values of column `j`: all of them in ascending
order, or all but the smallest when `drop_first`. -/
def uniqList (X : List (List Obj)) (drop_first : Bool) (j : ℕ) : List Obj :=
  if drop_first then (npUnique (colVals X j)).tail else npUnique (colVals X j)

/-- The row-level effect of one `encodeStep` at a valid column `j`: the
cell at `j` is replaced by its indicator row. -/
def spliceAt (X : List (List Obj)) (drop_first : Bool) (j : ℕ) : List (List Obj) :=
  X.map fun r =>
    r.take j ++ oneHotsRow (uniqList X drop_first j) (r.getD j d0) ++ r.drop (j + 1)

/-- The group of indicator columns that the spec says replaces the
designated column `j`: one 0/1 column per retained unique value. -/
def indicatorGroup (X : List (List Obj)) (drop_first : Bool) (j : ℕ) :
    List (List Obj) :=
  (uniqList X drop_first j).map
    fun v => (colVals X j).map fun e => if e = v then Obj.num 1 else Obj.num 0

/-- The columns of a table, left to right. -/
def tcols (X : List (List Obj)) : List (List Obj) :=
  (List.range (ncolsO X)).map (colVals X)

/-- The column layout the spec prescribes for the encoder's result: each
designated column replaced in place by its indicator group, all other
columns kept as they are, in order. -/
def specCols (X : List (List Obj)) (idxs : List ℤ) (drop_first : Bool) :
    List (List Obj) :=
  ((List.range (ncolsO X)).map fun (j : ℕ) =>
    if (j : ℤ) ∈ idxs then indicatorGroup X drop_first j else [colVals X j]).flatten

/-- Numeric reading of a cell (indicator cells are `Obj.num` values). -/
def Obj.toQ : Obj → ℚ
  | .num q => q
  | .str _ => 0

/-! ### Theorems -/

/-- Claim C7: on a freshly constructed `LinearRegressor` (both fields
absent), `predict` fails with the NotFitted error for every input. -/
theorem claim_C7 (X : NpF) :
    LinearRegressor.mkNew.coefficients = none ∧
    LinearRegressor.mkNew.intercept = none ∧
    LinearRegressor.mkNew.predict X
      = .error (.valueError "Model is not yet fitted") :=
  ⟨rfl, rfl, rfl⟩

/-- Claim C6: `fit` with a method other than `"least_squares"` and
`"gradient_descent"` raises the InvalidArgument (`ValueError`) before any
computation, and the caller's model keeps whatever state (fitted or
unfitted) it had. -/
theorem claim_C6 (model : LinearRegressor) (X : NpF) (y : List ℚ)
    (method : String) (learning_rate : ℚ) (iterations : ℕ) (r0 : ℚ) (rc : ℕ → ℚ)
    (h1 : method ≠ "least_squares") (h2 : method ≠ "gradient_descent") :
    model.callFit X y method learning_rate iterations r0 rc
      = (model, some (.valueError
          ("Method " ++ method ++ " not available for training linear regression."))) := by
  have hm : method ∉ ["least_squares", "gradient_descent"] := by
    simp [h1, h2]
  simp [LinearRegressor.callFit, LinearRegressor.fit, hm]

theorem claim_C6_witness :
    (("bogus" : String) ≠ "least_squares" ∧ ("bogus" : String) ≠ "gradient_descent") ∧
    LinearRegressor.mkNew.callFit (NpF.d1 []) [] "bogus" 0 0 0 (fun _ => 0)
      = (LinearRegressor.mkNew, some (.valueError
          ("Method " ++ "bogus" ++ " not available for training linear regression."))) :=
  ⟨⟨by decide, by decide⟩,
   claim_C6 LinearRegressor.mkNew (NpF.d1 []) [] "bogus" 0 0 0 (fun _ => 0)
     (by decide) (by decide)⟩

theorem stripBias (M : List (List ℚ)) :
    (M.map fun r => (1 : ℚ) :: r).map (fun r => r.drop 1) = M := by
  simp [List.map_map, Function.comp_def]

theorem exceptBind_ok {α β : Type} (x : α) (g : α → Except PyError β) :
    (Except.ok x >>= g) = g x := rfl

theorem gdStep_ok (M : List (List ℚ)) (y : List ℚ) (lr b : ℚ) (c : List ℚ)
    (hrect : ∀ r ∈ M, r.length = ncolsQ M) (hcl : c.length = ncolsQ M)
    (hy : y.length = M.length) (hn : y.length ≠ 0) :
    gdStep (M.map fun r => 1 :: r) y lr y.length ⟨some c, some b⟩
      = .ok ⟨some (gdSpecStep M y lr (b, c)).2, some (gdSpecStep M y lr (b, c)).1⟩ := by
  have hall : (M.all fun r => r.length = c.length) = true := by
    rw [List.all_eq_true]
    intro r hr
    simp [hrect r hr, hcl]
  have hpred : (⟨some c, some b⟩ : LinearRegressor).predict (NpF.d2 M)
      = .ok (M.map fun r => b + dotL r c) := by
    simp [LinearRegressor.predict, hall]
  have hsub : npBroadcast (fun a b => a - b) (M.map fun r => b + dotL r c) y
      = .ok (List.zipWith (fun row yi => (b + dotL row c) - yi) M y) := by
    unfold npBroadcast
    rw [if_pos (by simp [hy])]
    rw [List.zipWith_map_left]
  have hc2 : npBroadcast (fun cj gj => cj - gj) c
      (((transposeQ M).map fun col =>
          2 / (y.length : ℚ) * dotL col (List.zipWith (fun row yi => (b + dotL row c) - yi) M y)).map
        fun gj => lr * gj)
      = .ok (List.zipWith (fun cj col => cj - lr * (2 / (y.length : ℚ) * dotL col
          (List.zipWith (fun row yi => (b + dotL row c) - yi) M y))) c (transposeQ M)) := by
    unfold npBroadcast
    rw [if_pos (by simp [hcl, transposeQ])]
    rw [List.zipWith_map_right, List.zipWith_map_right]
  simp only [gdStep, stripBias, hpred, exceptBind_ok, hsub, hn, if_neg,
    ite_false, hc2, gdSpecStep]

theorem gd_fold (M : List (List ℚ)) (y : List ℚ) (lr : ℚ)
    (hrect : ∀ r ∈ M, r.length = ncolsQ M)
    (hy : y.length = M.length) (hn : y.length ≠ 0) :
    ∀ (l : List ℕ) (b : ℚ) (c : List ℚ), c.length = ncolsQ M →
    (l.foldlM (fun m _ => gdStep (M.map fun r => 1 :: r) y lr y.length m)
        (⟨some c, some b⟩ : LinearRegressor))
      = .ok ⟨some ((gdSpecStep M y lr)^[l.length] (b, c)).2,
             some ((gdSpecStep M y lr)^[l.length] (b, c)).1⟩ := by
  intro l
  induction l with
  | nil => intro b c _; rfl
  | cons a t ih =>
    intro b c hc
    rw [List.foldlM_cons, gdStep_ok M y lr b c hrect hc hy hn, exceptBind_ok]
    have hlen2 : (gdSpecStep M y lr (b, c)).2.length = ncolsQ M := by
      simp [gdSpecStep, List.length_zipWith, hc, transposeQ]
    rw [ih _ _ hlen2]
    simp [Function.iterate_succ_apply]

/-- Claim C2: `fit(X, y, method="gradient_descent", learning_rate,
iterations)` draws the initial intercept and coefficients (each
`rand * 0.01`, hence in `[0, 0.01)`) and then performs exactly
`iterations` full-batch update steps of `gdSpecStep` — the spec's
`error = (intercept + X·coefficients) − y` over the raw feature columns,
`intercept −= lr·(2/n)·Σ error`, `coefficients −= lr·(2/n)·Xᵀ·error` —
with no convergence check or early stop. -/
theorem claim_C2 (model : LinearRegressor) (M : List (List ℚ)) (y : List ℚ)
    (learning_rate : ℚ) (iterations : ℕ) (r0 : ℚ) (rc : ℕ → ℚ)
    (hrect : ∀ r ∈ M, r.length = ncolsQ M)
    (hy : y.length = M.length) (hn : 0 < y.length) (_hlr : 0 < learning_rate)
    (hr0 : 0 ≤ r0 ∧ r0 < 1) (hrc : ∀ i, 0 ≤ rc i ∧ rc i < 1) :
    (model.fit (NpF.d2 M) y "gradient_descent" learning_rate iterations r0 rc
      = .ok ⟨some ((gdSpecStep M y learning_rate)^[iterations]
                (r0 * (1 / 100), (List.range (ncolsQ M)).map fun i => rc i * (1 / 100))).2,
             some ((gdSpecStep M y learning_rate)^[iterations]
                (r0 * (1 / 100), (List.range (ncolsQ M)).map fun i => rc i * (1 / 100))).1⟩)
    ∧ (0 ≤ r0 * (1 / 100) ∧ r0 * (1 / 100) < 1 / 100)
    ∧ (∀ q ∈ (List.range (ncolsQ M)).map fun i => rc i * (1 / 100),
        0 ≤ q ∧ q < 1 / 100) := by
  refine ⟨?_, ⟨mul_nonneg hr0.1 (by norm_num), ?_⟩, ?_⟩
  · obtain ⟨r₀, M', rfl⟩ : ∃ r₀ M', M = r₀ :: M' := by
      cases M with
      | nil => simp [hy] at hn
      | cons r₀ M' => exact ⟨r₀, M', rfl⟩
    have hne : y.length ≠ 0 := Nat.pos_iff_ne_zero.mp hn
    unfold LinearRegressor.fit
    rw [if_neg (by decide), if_neg (by decide)]
    simp only [reshaped]
    unfold LinearRegressor.fit_gradient_descent
    have hc0 : ((List.range (ncolsQ ((r₀ :: M').map fun r => (1 : ℚ) :: r) - 1)).map
        fun i => rc i * (1 / 100)).length = ncolsQ (r₀ :: M') := by
      simp [ncolsQ]
    rw [show ncolsQ ((r₀ :: M').map fun r => (1 : ℚ) :: r) - 1 = ncolsQ (r₀ :: M') by
      simp [ncolsQ]]
    rw [gd_fold (r₀ :: M') y learning_rate hrect hy hne (List.range iterations) _ _
      (by simp [ncolsQ])]
    simp
  · nlinarith [hr0.2]
  · intro q hq
    simp only [List.mem_map] at hq
    obtain ⟨i, _, rfl⟩ := hq
    exact ⟨mul_nonneg (hrc i).1 (by norm_num), by nlinarith [(hrc i).2]⟩

/-- Claim C10: gradient descent with `iterations = 0` performs no update
step but still leaves the model fitted: intercept and coefficients hold
their random initial values in `[0, 0.01)`, and a subsequent `predict`
succeeds instead of raising NotFitted. -/
theorem claim_C10 (model : LinearRegressor) (M : List (List ℚ)) (y : List ℚ)
    (learning_rate : ℚ) (r0 : ℚ) (rc : ℕ → ℚ)
    (hrect : ∀ r ∈ M, r.length = ncolsQ M)
    (hy : y.length = M.length) (hm : 1 ≤ ncolsQ M) (_hlr : 0 < learning_rate)
    (hr0 : 0 ≤ r0 ∧ r0 < 1) (hrc : ∀ i, 0 ≤ rc i ∧ rc i < 1) :
    (model.fit (NpF.d2 M) y "gradient_descent" learning_rate 0 r0 rc
      = .ok ⟨some ((List.range (ncolsQ M)).map fun i => rc i * (1 / 100)),
             some (r0 * (1 / 100))⟩)
    ∧ (0 ≤ r0 * (1 / 100) ∧ r0 * (1 / 100) < 1 / 100)
    ∧ (∀ q ∈ (List.range (ncolsQ M)).map fun i => rc i * (1 / 100),
        0 ≤ q ∧ q < 1 / 100)
    ∧ ((⟨some ((List.range (ncolsQ M)).map fun i => rc i * (1 / 100)),
          some (r0 * (1 / 100))⟩ : LinearRegressor).predict (NpF.d2 M)
        = .ok (M.map fun r =>
            r0 * (1 / 100) + dotL r ((List.range (ncolsQ M)).map fun i => rc i * (1 / 100)))) := by
  obtain ⟨r₀, M', rfl⟩ : ∃ r₀ M', M = r₀ :: M' := by
    cases M with
    | nil => simp [ncolsQ] at hm
    | cons r₀ M' => exact ⟨r₀, M', rfl⟩
  refine ⟨?_, ⟨mul_nonneg hr0.1 (by norm_num), ?_⟩, ?_, ?_⟩
  · unfold LinearRegressor.fit
    rw [if_neg (by decide), if_neg (by decide)]
    simp only [reshaped]
    unfold LinearRegressor.fit_gradient_descent
    rw [show ncolsQ ((r₀ :: M').map fun r => (1 : ℚ) :: r) - 1 = ncolsQ (r₀ :: M') by
      simp [ncolsQ]]
    rfl
  · nlinarith [hr0.2]
  · intro q hq
    simp only [List.mem_map] at hq
    obtain ⟨i, _, rfl⟩ := hq
    exact ⟨mul_nonneg (hrc i).1 (by norm_num), by nlinarith [(hrc i).2]⟩
  · simp only [LinearRegressor.predict]
    rw [if_pos]
    rw [List.all_eq_true]
    intro r hr
    simp [hrect r hr]

theorem matInv_eq_inv {k : ℕ} (A : Matrix (Fin k) (Fin k) ℚ) : matInv A = A⁻¹ := by
  rw [Matrix.inv_def, matInv, Ring.inverse_eq_inv]

theorem toMat_bias_apply (r₀ : List ℚ) (rs : List (List ℚ))
    (i : Fin ((r₀ :: rs).map fun r => (1 : ℚ) :: r).length)
    (j : Fin (ncolsQ (r₀ :: rs) + 1)) :
    toMat ((r₀ :: rs).map fun r => (1 : ℚ) :: r).length
        (ncolsQ ((r₀ :: rs).map fun r => (1 : ℚ) :: r))
        ((r₀ :: rs).map fun r => (1 : ℚ) :: r) i j
      = biasMat (r₀ :: rs) (Fin.cast (by simp) i) j := by
  have hi : (i : ℕ) < ((r₀ :: rs).map fun r => (1 : ℚ) :: r).length := i.isLt
  have hi' : (i : ℕ) < (r₀ :: rs).length := by simpa using hi
  have hB : (((r₀ :: rs).map fun r => (1 : ℚ) :: r).getD (i : ℕ) [])
      = 1 :: ((r₀ :: rs).getD (i : ℕ) []) := by
    rw [List.getD_eq_getElem _ _ hi, List.getElem_map, List.getD_eq_getElem _ _ hi']
  induction j using Fin.cases with
  | zero =>
    simp only [toMat, biasMat, Matrix.of_apply]
    rw [hB]
    simp
  | succ j' =>
    simp only [toMat, biasMat, Matrix.of_apply]
    rw [hB]
    simp [toMat]

theorem bias_gram (r₀ : List ℚ) (rs : List (List ℚ)) :
    (toMat ((r₀ :: rs).map fun r => (1 : ℚ) :: r).length
        (ncolsQ ((r₀ :: rs).map fun r => (1 : ℚ) :: r))
        ((r₀ :: rs).map fun r => (1 : ℚ) :: r)).transpose
      * toMat ((r₀ :: rs).map fun r => (1 : ℚ) :: r).length
        (ncolsQ ((r₀ :: rs).map fun r => (1 : ℚ) :: r))
        ((r₀ :: rs).map fun r => (1 : ℚ) :: r)
      = (biasMat (r₀ :: rs)).transpose * biasMat (r₀ :: rs) := by
  have hl : ((r₀ :: rs).map fun r => (1 : ℚ) :: r).length = (r₀ :: rs).length := by simp
  ext j k
  rw [Matrix.mul_apply, Matrix.mul_apply]
  rw [← Equiv.sum_comp (finCongr hl)
    (fun i => (biasMat (r₀ :: rs)).transpose j i * biasMat (r₀ :: rs) i k)]
  refine Finset.sum_congr rfl fun i _ => ?_
  rw [Matrix.transpose_apply, Matrix.transpose_apply, finCongr_apply,
    toMat_bias_apply r₀ rs i j, toMat_bias_apply r₀ rs i k]

theorem bias_vec (r₀ : List ℚ) (rs : List (List ℚ)) (y : List ℚ) :
    (toMat ((r₀ :: rs).map fun r => (1 : ℚ) :: r).length
        (ncolsQ ((r₀ :: rs).map fun r => (1 : ℚ) :: r))
        ((r₀ :: rs).map fun r => (1 : ℚ) :: r)).transpose.mulVec
      (toVec ((r₀ :: rs).map fun r => (1 : ℚ) :: r).length y)
      = (biasMat (r₀ :: rs)).transpose.mulVec (toVec (r₀ :: rs).length y) := by
  have hl : ((r₀ :: rs).map fun r => (1 : ℚ) :: r).length = (r₀ :: rs).length := by simp
  funext j
  simp only [Matrix.mulVec, Matrix.dotProduct, Matrix.transpose_apply]
  rw [← Equiv.sum_comp (finCongr hl)
    (fun i => biasMat (r₀ :: rs) i j * toVec (r₀ :: rs).length y i)]
  refine Finset.sum_congr rfl fun i _ => ?_
  rw [finCongr_apply, toMat_bias_apply r₀ rs i j]
  rfl

theorem fit_ls_core (r₀ : List ℚ) (rs : List (List ℚ)) (y : List ℚ)
    (model : LinearRegressor)
    (hy : y.length = (r₀ :: rs).length)
    (hinv : IsUnit ((biasMat (r₀ :: rs)).transpose * biasMat (r₀ :: rs)).det) :
    model.fit_multiple ((r₀ :: rs).map fun r => 1 :: r) y
      = .ok ⟨some (List.ofFn fun i : Fin (ncolsQ (r₀ :: rs)) => lsBeta (r₀ :: rs) y i.succ),
             some (lsBeta (r₀ :: rs) y 0)⟩ := by
  simp only [LinearRegressor.fit_multiple]
  rw [if_pos (by simp [hy])]
  rw [bias_gram r₀ rs, bias_vec r₀ rs y]
  split_ifs with hdet0
  · exact absurd hdet0 (isUnit_iff_ne_zero.mp hinv)
  · rw [matInv_eq_inv, List.ofFn_succ]
    rfl

theorem fin_cases_const {α : Type} {n : ℕ} (a b : α) (j : Fin (n + 1)) :
    (Fin.cases a (fun _ => b) j : α) = if j = 0 then a else b := by
  induction j using Fin.cases with
  | zero => simp
  | succ i => simp [Fin.succ_ne_zero]

/-- Claim C1: for least-squares fitting (with a 1D `X` first reshaped into
a single feature column) on data whose bias-augmented Gram matrix is
invertible, `fit` prepends the constant column of ones and computes
`beta = (X_biasᵀ X_bias)⁻¹ X_biasᵀ y`, storing `beta[0]` as the intercept
and `beta[1:]` as the coefficients. -/
theorem claim_C1 (model : LinearRegressor) (X : NpF) (y : List ℚ)
    (learning_rate : ℚ) (iterations : ℕ) (r0 : ℚ) (rc : ℕ → ℚ)
    (hy : y.length = (reshaped X).length)
    (hinv : IsUnit ((biasMat (reshaped X)).transpose * biasMat (reshaped X)).det) :
    model.fit X y "least_squares" learning_rate iterations r0 rc
      = .ok ⟨some (List.ofFn fun i : Fin (ncolsQ (reshaped X)) =>
                lsBeta (reshaped X) y i.succ),
             some (lsBeta (reshaped X) y 0)⟩ := by
  simp only [LinearRegressor.fit]
  rw [if_neg (by decide), if_pos trivial]
  generalize hR : reshaped X = rows at hy hinv ⊢
  cases rows with
  | nil =>
    exfalso
    have h0 : ((biasMat ([] : List (List ℚ))).transpose * biasMat []) = 0 := by
      ext j k
      simp [Matrix.mul_apply]
    rw [h0, Matrix.det_zero ⟨0⟩] at hinv
    exact hinv.ne_zero rfl
  | cons r₀ rs =>
    exact fit_ls_core r₀ rs y model hy hinv

theorem claim_C1_witness :
    (([(0 : ℚ), 1] : List ℚ).length = (reshaped (NpF.d2 [[(0:ℚ)],[1]])).length)
    ∧ IsUnit ((biasMat (reshaped (NpF.d2 [[(0:ℚ)],[1]]))).transpose
        * biasMat (reshaped (NpF.d2 [[(0:ℚ)],[1]]))).det
    ∧ LinearRegressor.mkNew.fit (NpF.d2 [[(0:ℚ)],[1]]) [0, 1] "least_squares" 0 0 0 (fun _ => 0)
      = .ok ⟨some (List.ofFn fun i : Fin (ncolsQ (reshaped (NpF.d2 [[(0:ℚ)],[1]]))) =>
                lsBeta (reshaped (NpF.d2 [[(0:ℚ)],[1]])) [0, 1] i.succ),
             some (lsBeta (reshaped (NpF.d2 [[(0:ℚ)],[1]])) [0, 1] 0)⟩ := by
  have hinv : IsUnit ((biasMat (reshaped (NpF.d2 [[(0:ℚ)],[1]]))).transpose
      * biasMat (reshaped (NpF.d2 [[(0:ℚ)],[1]]))).det := by
    refine isUnit_iff_ne_zero.mpr ?_
    show (Matrix.det (n := Fin 2) (R := ℚ)
      (@HMul.hMul (Matrix (Fin 2) (Fin 2) ℚ) (Matrix (Fin 2) (Fin 2) ℚ) (Matrix (Fin 2) (Fin 2) ℚ) _
        (Matrix.transpose (m := Fin 2) (n := Fin 2) (biasMat (reshaped (NpF.d2 [[(0:ℚ)],[1]]))))
        (biasMat (reshaped (NpF.d2 [[(0:ℚ)],[1]]))))) ≠ 0
    rw [Matrix.det_fin_two]
    simp only [Matrix.mul_apply, Fin.sum_univ_two, Matrix.transpose_apply]
    norm_num [biasMat, toMat, Matrix.of_apply, fin_cases_const, reshaped]
  exact ⟨rfl, hinv,
    claim_C1 LinearRegressor.mkNew (NpF.d2 [[(0:ℚ)],[1]]) [0, 1] 0 0 0 (fun _ => 0) rfl hinv⟩

theorem claim_C2_witness :
    ((∀ r ∈ [[(1:ℚ)]], r.length = ncolsQ [[(1:ℚ)]])
      ∧ ([(2:ℚ)].length = [[(1:ℚ)]].length) ∧ 0 < [(2:ℚ)].length
      ∧ (0:ℚ) < 1/10 ∧ ((0:ℚ) ≤ 0 ∧ (0:ℚ) < 1)
      ∧ (∀ i : ℕ, (0:ℚ) ≤ (fun _ : ℕ => (0:ℚ)) i ∧ (fun _ : ℕ => (0:ℚ)) i < 1))
    ∧ ((LinearRegressor.mkNew.fit (NpF.d2 [[(1:ℚ)]]) [2] "gradient_descent" (1/10) 2 0 (fun _ => 0)
        = .ok ⟨some ((gdSpecStep [[(1:ℚ)]] [2] (1/10))^[2]
              ((0:ℚ) * (1 / 100), (List.range (ncolsQ [[(1:ℚ)]])).map fun i => (fun _ : ℕ => (0:ℚ)) i * (1 / 100))).2,
            some ((gdSpecStep [[(1:ℚ)]] [2] (1/10))^[2]
              ((0:ℚ) * (1 / 100), (List.range (ncolsQ [[(1:ℚ)]])).map fun i => (fun _ : ℕ => (0:ℚ)) i * (1 / 100))).1⟩)
      ∧ ((0:ℚ) ≤ 0 * (1 / 100) ∧ (0:ℚ) * (1 / 100) < 1 / 100)
      ∧ (∀ q ∈ (List.range (ncolsQ [[(1:ℚ)]])).map fun i => (fun _ : ℕ => (0:ℚ)) i * (1 / 100),
          0 ≤ q ∧ q < 1 / 100)) := by
  refine ⟨⟨by decide, rfl, by decide, by norm_num, ⟨le_refl 0, by norm_num⟩,
    fun i => ⟨le_refl 0, by norm_num⟩⟩, ?_⟩
  exact claim_C2 LinearRegressor.mkNew [[(1:ℚ)]] [2] (1/10) 2 0 (fun _ => 0)
    (by decide) rfl (by decide) (by norm_num) ⟨le_refl 0, by norm_num⟩
    (fun i => ⟨le_refl 0, by norm_num⟩)

theorem claim_C10_witness :
    ((∀ r ∈ [[(1:ℚ)]], r.length = ncolsQ [[(1:ℚ)]])
      ∧ ([(2:ℚ)].length = [[(1:ℚ)]].length) ∧ 1 ≤ ncolsQ [[(1:ℚ)]] ∧ (0:ℚ) < 1)
    ∧ ((LinearRegressor.mkNew.fit (NpF.d2 [[(1:ℚ)]]) [2] "gradient_descent" 1 0 0 (fun _ => 0)
        = .ok ⟨some ((List.range (ncolsQ [[(1:ℚ)]])).map fun i => (fun _ : ℕ => (0:ℚ)) i * (1 / 100)),
               some ((0:ℚ) * (1 / 100))⟩)
      ∧ ((0:ℚ) ≤ 0 * (1 / 100) ∧ (0:ℚ) * (1 / 100) < 1 / 100)
      ∧ (∀ q ∈ (List.range (ncolsQ [[(1:ℚ)]])).map fun i => (fun _ : ℕ => (0:ℚ)) i * (1 / 100),
          0 ≤ q ∧ q < 1 / 100)
      ∧ ((⟨some ((List.range (ncolsQ [[(1:ℚ)]])).map fun i => (fun _ : ℕ => (0:ℚ)) i * (1 / 100)),
            some ((0:ℚ) * (1 / 100))⟩ : LinearRegressor).predict (NpF.d2 [[(1:ℚ)]])
          = .ok ([[(1:ℚ)]].map fun r => (0:ℚ) * (1 / 100)
              + dotL r ((List.range (ncolsQ [[(1:ℚ)]])).map fun i => (fun _ : ℕ => (0:ℚ)) i * (1 / 100))))) := by
  refine ⟨⟨by decide, rfl, by decide, by norm_num⟩, ?_⟩
  exact claim_C10 LinearRegressor.mkNew [[(1:ℚ)]] [2] 1 0 (fun _ => 0)
    (by decide) rfl (by decide) (by norm_num) ⟨le_refl 0, by norm_num⟩
    (fun i => ⟨le_refl 0, by norm_num⟩)

/-- Claim C5: `evaluate_regression` returns a mapping with exactly the
keys `"R2"`, `"RMSE"`, `"MAE"`, whose values are
`1 − Σ(y_true−y_pred)²/Σ(y_true−mean)²`, `sqrt(mean((y_true−y_pred)²))`
and `mean(|y_true−y_pred|)`; and on a perfect prediction
`evaluate_regression y y` yields `R2 = 1`, `RMSE = 0`, `MAE = 0`. -/
theorem claim_C5 (y_true y_pred : List ℚ)
    (hlen : y_true.length = y_pred.length)
    (hnc : ∃ a ∈ y_true, ∃ b ∈ y_true, a ≠ b) :
    ((evaluate_regression y_true y_pred).map Prod.fst = ["R2", "RMSE", "MAE"])
    ∧ evaluate_regression y_true y_pred
      = [("R2", ((1 - (List.zipWith (fun a b => (a - b) ^ 2) y_true y_pred).sum /
            (y_true.map fun a => (a - y_true.sum / (y_true.length : ℚ)) ^ 2).sum : ℚ) : ℝ)),
         ("RMSE", Real.sqrt (((List.zipWith (fun a b => (a - b) ^ 2) y_true y_pred).sum /
            (y_true.length : ℚ) : ℚ) : ℝ)),
         ("MAE", (((List.zipWith (fun a b => |a - b|) y_true y_pred).sum /
            (y_true.length : ℚ) : ℚ) : ℝ))]
    ∧ evaluate_regression y_true y_true = [("R2", 1), ("RMSE", 0), ("MAE", 0)] := by
  refine ⟨by simp [evaluate_regression], ?_, ?_⟩
  · simp only [evaluate_regression]
    have h1 : ∀ x : ℚ, 1 / (y_true.length : ℚ) * x = x / (y_true.length : ℚ) :=
      fun x => by ring
    rw [h1, h1]
  · simp [evaluate_regression, List.zipWith_same]

theorem claim_C5_witness :
    (([(0:ℚ), 1].length = [(0:ℚ), 0].length)
      ∧ (∃ a ∈ [(0:ℚ), 1], ∃ b ∈ [(0:ℚ), 1], a ≠ b))
    ∧ (((evaluate_regression [(0:ℚ), 1] [(0:ℚ), 0]).map Prod.fst = ["R2", "RMSE", "MAE"])
      ∧ evaluate_regression [(0:ℚ), 1] [(0:ℚ), 0]
        = [("R2", ((1 - (List.zipWith (fun a b => (a - b) ^ 2) [(0:ℚ), 1] [(0:ℚ), 0]).sum /
              ([(0:ℚ), 1].map fun a => (a - [(0:ℚ), 1].sum / (([(0:ℚ), 1].length : ℕ) : ℚ)) ^ 2).sum : ℚ) : ℝ)),
           ("RMSE", Real.sqrt (((List.zipWith (fun a b => (a - b) ^ 2) [(0:ℚ), 1] [(0:ℚ), 0]).sum /
              (([(0:ℚ), 1].length : ℕ) : ℚ) : ℚ) : ℝ)),
           ("MAE", (((List.zipWith (fun a b => |a - b|) [(0:ℚ), 1] [(0:ℚ), 0]).sum /
              (([(0:ℚ), 1].length : ℕ) : ℚ) : ℚ) : ℝ))]
      ∧ evaluate_regression [(0:ℚ), 1] [(0:ℚ), 1] = [("R2", 1), ("RMSE", 0), ("MAE", 0)]) := by
  refine ⟨⟨rfl, ⟨0, by simp, 1, by simp, by norm_num⟩⟩, ?_⟩
  exact claim_C5 [(0:ℚ), 1] [(0:ℚ), 0] rfl ⟨0, by simp, 1, by simp, by norm_num⟩

theorem npUnique_perm (l : List Obj) : (npUnique l).Perm l.dedup :=
  List.perm_insertionSort _ _

theorem npUnique_nodup (l : List Obj) : (npUnique l).Nodup :=
  (npUnique_perm l).nodup_iff.mpr (List.nodup_dedup l)

theorem npUnique_mem (l : List Obj) (a : Obj) : a ∈ npUnique l ↔ a ∈ l :=
  ((npUnique_perm l).mem_iff).trans List.mem_dedup

theorem npUnique_sorted_le (l : List Obj) :
    List.Sorted (fun a b : Obj => a ≤ b) (npUnique l) :=
  List.sorted_insertionSort _ _

theorem npUnique_sorted_lt (l : List Obj) :
    List.Sorted (fun a b : Obj => a < b) (npUnique l) :=
  List.Sorted.lt_of_le (npUnique_sorted_le l) (npUnique_nodup l)

theorem npUnique_length (l : List Obj) : (npUnique l).length = l.dedup.length :=
  (npUnique_perm l).length_eq

theorem indicator_sum_count (u : List Obj) (e : Obj) :
    ((oneHotsRow u e).map Obj.toQ).sum = u.count e := by
  induction u with
  | nil => simp [oneHotsRow]
  | cons v t ih =>
    by_cases hv : e = v
    · subst hv
      simp [oneHotsRow, List.count_cons, Obj.toQ] at ih ⊢
      rw [ih]
      ring
    · have hv' : ¬(v = e) := fun h => hv h.symm
      simp [oneHotsRow, List.count_cons, Obj.toQ, hv, hv'] at ih ⊢
      rw [ih]

theorem encodeStep_ok (d : Bool) (X : List (List Obj)) (j : ℕ)
    (hrect : ∀ r ∈ X, r.length = ncolsO X) (hj : j < ncolsO X) :
    encodeStep d X (j : ℤ)
      = .ok (X.map fun r =>
          r.take j
          ++ oneHotsRow (if d then (npUnique (colVals X j)).tail else npUnique (colVals X j))
              (r.getD j d0)
          ++ r.drop (j + 1)) := by
  have hpy : pyIdx (ncolsO X) (j : ℤ) = some j := by
    unfold pyIdx
    rw [if_pos ⟨Int.natCast_nonneg j, by exact_mod_cast hj⟩, Int.toNat_natCast]
  unfold encodeStep
  rw [hpy]
  have hone : (colVals X j).map (oneHotsRow
      (if d then (npUnique (colVals X j)).tail else npUnique (colVals X j)))
      = X.map fun r => oneHotsRow
          (if d then (npUnique (colVals X j)).tail else npUnique (colVals X j)) (r.getD j d0) := by
    simp [colVals, List.map_map]
  simp only [hone]
  rw [List.zipWith_map_left, List.zipWith_map_right, List.zipWith_same]
  congr 1
  apply List.map_congr_left
  intro r hr
  have hrl : r.length = ncolsO X := hrect r hr
  have hel : (r.eraseIdx j).length = ncolsO X - 1 := by
    rw [List.length_eraseIdx, if_pos (hrl ▸ hj), hrl]
  have hslice : pySlice (r.eraseIdx j).length (j : ℤ) = j := by
    unfold pySlice
    rw [if_pos (Int.natCast_nonneg j), Int.toNat_natCast, hel]
    omega
  rw [hslice, List.eraseIdx_eq_take_drop_succ]
  have htl : (r.take j).length = j := by
    rw [List.length_take]
    omega
  rw [List.take_left' htl, List.drop_left' htl]

theorem tail_sorted_lt (l : List Obj) (h : List.Sorted (fun a b : Obj => a < b) l) :
    List.Sorted (fun a b : Obj => a < b) l.tail := by
  cases l with
  | nil => simp
  | cons a t => exact (List.pairwise_cons.mp h).2

/-- Claim C3: encoding a single valid column `c` with `k` distinct values
replaces it in place by the indicator columns of a sorted duplicate-free
list `u` of the column's values: with `drop_first = false`, `u` has
exactly `k` values (all of them) and every row's indicators sum to 1;
with `drop_first = true`, `u` has `k − 1` values (the smallest unique
value is dropped) and every row's indicators sum to 0 or 1. -/
theorem claim_C3 (X : List (List Obj)) (c : ℕ) (d : Bool)
    (hX : X ≠ []) (hrect : ∀ r ∈ X, r.length = ncolsO X) (hc : c < ncolsO X) :
    ∃ u : List Obj,
      one_hot_encode X [(c : ℤ)] d
        = .ok (X.map fun r => r.take c ++ oneHotsRow u (r.getD c d0) ++ r.drop (c + 1))
      ∧ List.Sorted (fun a b : Obj => a < b) u
      ∧ (d = false →
          u.length = (colVals X c).dedup.length
          ∧ (∀ v, v ∈ u ↔ v ∈ colVals X c)
          ∧ ∀ r ∈ X, ((oneHotsRow u (r.getD c d0)).map Obj.toQ).sum = 1)
      ∧ (d = true →
          u.length = (colVals X c).dedup.length - 1
          ∧ (∃ v0, v0 ∈ colVals X c ∧ (∀ w ∈ colVals X c, v0 ≤ w)
              ∧ ∀ v, v ∈ u ↔ v ∈ colVals X c ∧ v ≠ v0)
          ∧ ∀ r ∈ X, ((oneHotsRow u (r.getD c d0)).map Obj.toQ).sum = 1
              ∨ ((oneHotsRow u (r.getD c d0)).map Obj.toQ).sum = 0) := by
  refine ⟨if d then (npUnique (colVals X c)).tail else npUnique (colVals X c),
    ?_, ?_, ?_, ?_⟩
  · have h1 : one_hot_encode X [(c : ℤ)] d
        = encodeStep d X (c : ℤ) >>= fun T => pure T := rfl
    rw [h1, encodeStep_ok d X c hrect hc, exceptBind_ok]
    rfl
  · cases d
    · simpa using npUnique_sorted_lt (colVals X c)
    · simpa using tail_sorted_lt _ (npUnique_sorted_lt (colVals X c))
  · rintro rfl
    simp only [if_false, Bool.false_eq_true, ite_false]
    refine ⟨npUnique_length _, fun v => npUnique_mem _ v, fun r hr => ?_⟩
    have he : r.getD c d0 ∈ colVals X c := List.mem_map.mpr ⟨r, hr, rfl⟩
    rw [indicator_sum_count]
    rw [List.count_eq_one_of_mem (npUnique_nodup _) ((npUnique_mem _ _).mpr he)]
    norm_num
  · rintro rfl
    simp only [if_true]
    have hcol : colVals X c ≠ [] := by
      cases X with
      | nil => exact absurd rfl hX
      | cons r t => simp [colVals]
    obtain ⟨v0, rest, hu⟩ : ∃ v0 rest, npUnique (colVals X c) = v0 :: rest := by
      cases h : npUnique (colVals X c) with
      | nil =>
        exfalso
        obtain ⟨a, ha⟩ := List.exists_mem_of_ne_nil _ hcol
        have := (npUnique_mem (colVals X c) a).mpr ha
        rw [h] at this
        exact absurd this (List.not_mem_nil a)
      | cons v0 rest => exact ⟨v0, rest, rfl⟩
    have hnd : (v0 :: rest).Nodup := hu ▸ npUnique_nodup (colVals X c)
    have hle : List.Sorted (fun a b : Obj => a ≤ b) (v0 :: rest) :=
      hu ▸ npUnique_sorted_le (colVals X c)
    have hmemu : ∀ v, v ∈ v0 :: rest ↔ v ∈ colVals X c := fun v =>
      hu ▸ npUnique_mem (colVals X c) v
    have hrestmem : ∀ v, v ∈ rest ↔ v ∈ colVals X c ∧ v ≠ v0 := by
      intro v
      constructor
      · intro hv
        refine ⟨(hmemu v).mp (List.mem_cons_of_mem _ hv), ?_⟩
        rintro rfl
        exact absurd hv (List.nodup_cons.mp hnd).1
      · rintro ⟨hvc, hvne⟩
        rcases List.mem_cons.mp ((hmemu v).mpr hvc) with h | h
        · exact absurd h hvne
        · exact h
    refine ⟨?_, ⟨v0, (hmemu v0).mp (List.mem_cons_self _ _), ?_, ?_⟩, ?_⟩
    · rw [← npUnique_length, List.length_tail]
    · intro w hw
      rcases List.mem_cons.mp ((hmemu w).mpr hw) with h | h
      · exact h ▸ le_refl _
      · exact le_of_lt ((List.pairwise_cons.mp (List.Sorted.lt_of_le hle hnd)).1 w h)
    · intro v
      rw [hu]
      simp only [List.tail_cons]
      exact hrestmem v
    · intro r hr
      have he : r.getD c d0 ∈ colVals X c := List.mem_map.mpr ⟨r, hr, rfl⟩
      rw [hu]
      simp only [List.tail_cons]
      rw [indicator_sum_count]
      by_cases hev : r.getD c d0 = v0
      · right
        rw [List.count_eq_zero_of_not_mem]
        · norm_num
        · rw [hrestmem]
          rintro ⟨_, hne⟩
          exact hne hev
      · left
        rw [List.count_eq_one_of_mem (List.nodup_cons.mp hnd).2
          ((hrestmem _).mpr ⟨he, hev⟩)]
        norm_num

theorem claim_C3_witness :
    (([[Obj.num 10], [Obj.num 20]] : List (List Obj)) ≠ []
      ∧ (∀ r ∈ [[Obj.num 10], [Obj.num 20]], r.length = ncolsO [[Obj.num 10], [Obj.num 20]])
      ∧ 0 < ncolsO [[Obj.num 10], [Obj.num 20]])
    ∧ (∃ u : List Obj,
        one_hot_encode [[Obj.num 10], [Obj.num 20]] [(0 : ℤ)] true
          = .ok ([[Obj.num 10], [Obj.num 20]].map fun r =>
              r.take 0 ++ oneHotsRow u (r.getD 0 d0) ++ r.drop (0 + 1))
        ∧ List.Sorted (fun a b : Obj => a < b) u
        ∧ (true = false →
            u.length = (colVals [[Obj.num 10], [Obj.num 20]] 0).dedup.length
            ∧ (∀ v, v ∈ u ↔ v ∈ colVals [[Obj.num 10], [Obj.num 20]] 0)
            ∧ ∀ r ∈ [[Obj.num 10], [Obj.num 20]],
                ((oneHotsRow u (r.getD 0 d0)).map Obj.toQ).sum = 1)
        ∧ (true = true →
            u.length = (colVals [[Obj.num 10], [Obj.num 20]] 0).dedup.length - 1
            ∧ (∃ v0, v0 ∈ colVals [[Obj.num 10], [Obj.num 20]] 0
                ∧ (∀ w ∈ colVals [[Obj.num 10], [Obj.num 20]] 0, v0 ≤ w)
                ∧ ∀ v, v ∈ u ↔ v ∈ colVals [[Obj.num 10], [Obj.num 20]] 0 ∧ v ≠ v0)
            ∧ ∀ r ∈ [[Obj.num 10], [Obj.num 20]],
                ((oneHotsRow u (r.getD 0 d0)).map Obj.toQ).sum = 1
                ∨ ((oneHotsRow u (r.getD 0 d0)).map Obj.toQ).sum = 0)) :=
  ⟨⟨by decide, by decide, by decide⟩,
   claim_C3 [[Obj.num 10], [Obj.num 20]] 0 true (by decide) (by decide) (by decide)⟩

/-- Claim C8: `one_hot_encode` gives the same result for every
permutation of `categorical_indices`, because the source sorts the
indices in descending order before processing. -/
theorem claim_C8 (X : List (List Obj)) (d : Bool) (l l2 : List ℤ)
    (hp : l.Perm l2) :
    one_hot_encode X l d = one_hot_encode X l2 d := by
  unfold one_hot_encode
  have hsorteq : l.insertionSort descZ = l2.insertionSort descZ :=
    List.eq_of_perm_of_sorted
      (((List.perm_insertionSort descZ l).trans hp).trans
        (List.perm_insertionSort descZ l2).symm)
      (List.sorted_insertionSort descZ l) (List.sorted_insertionSort descZ l2)
  rw [hsorteq]

theorem claim_C8_witness :
    (([(0:ℤ), 2]).Perm [(2:ℤ), 0])
    ∧ one_hot_encode [[Obj.num 1, Obj.num 2, Obj.num 3]] [(0:ℤ), 2] false
      = one_hot_encode [[Obj.num 1, Obj.num 2, Obj.num 3]] [(2:ℤ), 0] false :=
  ⟨by decide,
   claim_C8 [[Obj.num 1, Obj.num 2, Obj.num 3]] false [(0:ℤ), 2] [(2:ℤ), 0] (by decide)⟩

/-- Counterexample to claim C9 as stated: a negative in-range index does
not fail — numpy interprets `-1` as the last column, so
`one_hot_encode([[10],[20]], [-1])` succeeds and encodes that column. -/
theorem claim_C9_counterexample :
    one_hot_encode [[Obj.num 10], [Obj.num 20]] [(-1 : ℤ)] false
      = .ok [[Obj.num 1, Obj.num 0], [Obj.num 0, Obj.num 1]] := rfl

/-- Claim C9 (amended): an index at or beyond the column count fails with
an IndexError (numpy's out-of-bounds error); negative indices down to
`-ncols` are accepted and counted from the end, so they do not fail. -/
theorem claim_C9_amended (X : List (List Obj)) (d : Bool) (idxs : List ℤ)
    (h : ∃ i ∈ idxs, (ncolsO X : ℤ) ≤ i) :
    one_hot_encode X idxs d = .error (.indexError "index out of bounds") := by
  obtain ⟨i, hi, hge⟩ := h
  unfold one_hot_encode
  have hmem : i ∈ idxs.insertionSort descZ :=
    ((List.perm_insertionSort descZ idxs).mem_iff).mpr hi
  cases hs : idxs.insertionSort descZ with
  | nil =>
    rw [hs] at hmem
    exact absurd hmem (List.not_mem_nil i)
  | cons a t =>
    have hsort := List.sorted_insertionSort descZ idxs
    rw [hs] at hsort hmem
    have ha : (ncolsO X : ℤ) ≤ a := by
      rcases List.mem_cons.mp hmem with h' | h'
      · exact h' ▸ hge
      · exact le_trans hge ((List.pairwise_cons.mp hsort).1 i h')
    rw [List.foldlM_cons]
    have hpy : pyIdx (ncolsO X) a = none := by
      unfold pyIdx
      rw [if_neg (by omega), if_neg (by omega)]
    have hstep : encodeStep d X a = .error (.indexError "index out of bounds") := by
      unfold encodeStep
      rw [hpy]
    rw [hstep]
    rfl

theorem claim_C9_amended_witness :
    (∃ i ∈ [(5:ℤ)], (ncolsO [[Obj.num 10], [Obj.num 20]] : ℤ) ≤ i)
    ∧ one_hot_encode [[Obj.num 10], [Obj.num 20]] [(5:ℤ)] false
      = .error (.indexError "index out of bounds") :=
  ⟨⟨5, by decide, by decide⟩,
   claim_C9_amended [[Obj.num 10], [Obj.num 20]] false [(5:ℤ)] ⟨5, by decide, by decide⟩⟩

theorem encodeStep_splice (d : Bool) (X : List (List Obj)) (j : ℕ)
    (hrect : ∀ r ∈ X, r.length = ncolsO X) (hj : j < ncolsO X) :
    encodeStep d X (j : ℤ) = .ok (spliceAt X d j) :=
  encodeStep_ok d X j hrect hj

theorem spliceAt_length (X : List (List Obj)) (d : Bool) (j : ℕ) :
    (spliceAt X d j).length = X.length := by
  simp [spliceAt]

theorem spliceAt_ne_nil (X : List (List Obj)) (d : Bool) (j : ℕ) (hX : X ≠ []) :
    spliceAt X d j ≠ [] := by
  simp [spliceAt, hX]

theorem spliceAt_row_length (X : List (List Obj)) (d : Bool) (j : ℕ)
    (hrect : ∀ r ∈ X, r.length = ncolsO X) (hj : j < ncolsO X) :
    ∀ r1 ∈ spliceAt X d j, r1.length = ncolsO X - 1 + (uniqList X d j).length := by
  intro r1 hr1
  obtain ⟨r, hr, rfl⟩ := List.mem_map.mp hr1
  have hrl := hrect r hr
  simp only [List.length_append, List.length_take, List.length_drop, oneHotsRow,
    List.length_map, hrl]
  omega

theorem ncolsO_spliceAt (X : List (List Obj)) (d : Bool) (j : ℕ)
    (hX : X ≠ []) (hrect : ∀ r ∈ X, r.length = ncolsO X) (hj : j < ncolsO X) :
    ncolsO (spliceAt X d j) = ncolsO X - 1 + (uniqList X d j).length := by
  cases X with
  | nil => exact absurd rfl hX
  | cons r t =>
    exact spliceAt_row_length (r :: t) d j hrect hj _
      (List.mem_map.mpr ⟨r, List.mem_cons_self r t, rfl⟩)

theorem spliceAt_rect (X : List (List Obj)) (d : Bool) (j : ℕ)
    (hX : X ≠ []) (hrect : ∀ r ∈ X, r.length = ncolsO X) (hj : j < ncolsO X) :
    ∀ r1 ∈ spliceAt X d j, r1.length = ncolsO (spliceAt X d j) := by
  intro r1 hr1
  rw [ncolsO_spliceAt X d j hX hrect hj]
  exact spliceAt_row_length X d j hrect hj r1 hr1

theorem colVals_spliceAt_lt (X : List (List Obj)) (d : Bool) (j t : ℕ)
    (hrect : ∀ r ∈ X, r.length = ncolsO X) (hj : j < ncolsO X) (ht : t < j) :
    colVals (spliceAt X d j) t = colVals X t := by
  unfold colVals spliceAt
  rw [List.map_map]
  apply List.map_congr_left
  intro r hr
  have hrl := hrect r hr
  have h1 : t < (r.take j ++ oneHotsRow (uniqList X d j) (r.getD j d0)).length := by
    simp only [List.length_append, List.length_take]
    omega
  have h2 : t < (r.take j).length := by
    simp only [List.length_take]
    omega
  show ((r.take j ++ oneHotsRow (uniqList X d j) (r.getD j d0)) ++ r.drop (j + 1)).getD t d0
      = r.getD t d0
  rw [List.getD_append _ _ _ _ h1, List.getD_append _ _ _ _ h2,
    List.getD_eq_getElem _ _ h2, List.getElem_take,
    List.getD_eq_getElem _ _ (by omega : t < r.length)]

theorem colVals_spliceAt_mid (X : List (List Obj)) (d : Bool) (j t : ℕ)
    (hrect : ∀ r ∈ X, r.length = ncolsO X) (hj : j < ncolsO X)
    (ht : t < (uniqList X d j).length) :
    colVals (spliceAt X d j) (j + t)
      = (colVals X j).map fun e =>
          if e = (uniqList X d j).getD t d0 then Obj.num 1 else Obj.num 0 := by
  unfold colVals spliceAt
  rw [List.map_map, List.map_map]
  apply List.map_congr_left
  intro r hr
  have hrl := hrect r hr
  have htk : (r.take j).length = j := by
    simp only [List.length_take]
    omega
  have h1 : j + t < (r.take j ++ oneHotsRow (uniqList X d j) (r.getD j d0)).length := by
    simp only [List.length_append, List.length_take, oneHotsRow, List.length_map]
    omega
  show ((r.take j ++ oneHotsRow (uniqList X d j) (r.getD j d0)) ++ r.drop (j + 1)).getD (j + t) d0
      = if r.getD j d0 = (uniqList X d j).getD t d0 then Obj.num 1 else Obj.num 0
  rw [List.getD_append _ _ _ _ h1, List.getD_append_right _ _ _ _ (by omega : (r.take j).length ≤ j + t)]
  rw [htk]
  have h3 : j + t - j = t := by omega
  rw [h3]
  have h4 : t < (oneHotsRow (uniqList X d j) (r.getD j d0)).length := by
    simp only [oneHotsRow, List.length_map]
    exact ht
  rw [List.getD_eq_getElem _ _ h4]
  unfold oneHotsRow
  rw [List.getElem_map]
  rw [List.getD_eq_getElem _ _ ht]

theorem colVals_spliceAt_right (X : List (List Obj)) (d : Bool) (j t : ℕ)
    (hrect : ∀ r ∈ X, r.length = ncolsO X) (hj : j < ncolsO X) :
    colVals (spliceAt X d j) (j + (uniqList X d j).length + t)
      = colVals X (j + 1 + t) := by
  unfold colVals spliceAt
  rw [List.map_map]
  apply List.map_congr_left
  intro r hr
  have hrl := hrect r hr
  have htk : (r.take j).length = j := by
    simp only [List.length_take]
    omega
  have hpre : (r.take j ++ oneHotsRow (uniqList X d j) (r.getD j d0)).length
      = j + (uniqList X d j).length := by
    simp only [List.length_append, oneHotsRow, List.length_map, htk]
  show ((r.take j ++ oneHotsRow (uniqList X d j) (r.getD j d0)) ++ r.drop (j + 1)).getD
        (j + (uniqList X d j).length + t) d0
      = r.getD (j + 1 + t) d0
  rw [List.getD_append_right _ _ _ _ (by omega : (r.take j ++ oneHotsRow (uniqList X d j) (r.getD j d0)).length ≤ j + (uniqList X d j).length + t)]
  rw [hpre]
  have h3 : j + (uniqList X d j).length + t - (j + (uniqList X d j).length) = t := by omega
  rw [h3]
  by_cases hin : j + 1 + t < r.length
  · have h4 : t < (r.drop (j + 1)).length := by
      simp only [List.length_drop]
      omega
    rw [List.getD_eq_getElem _ _ h4, List.getElem_drop, List.getD_eq_getElem _ _ (by omega : j + 1 + t < r.length)]
  · rw [List.getD_eq_default _ _ (by simp only [List.length_drop]; omega),
      List.getD_eq_default _ _ (by omega)]

theorem map_range_getD {β γ : Type} (L : List β) (dflt : β) (F : β → γ) :
    (List.range L.length).map (fun t => F (L.getD t dflt)) = L.map F := by
  induction L with
  | nil => simp
  | cons a tl ih =>
    rw [List.length_cons, List.range_succ_eq_map]
    simp only [List.map_cons, List.getD_cons_zero, List.map_map]
    rw [← ih]
    rfl

theorem flatten_map_singleton {β γ : Type} (l : List β) (f : β → γ) :
    (l.map fun a => [f a]).flatten = l.map f := by
  induction l with
  | nil => rfl
  | cons a tl ih => simp [ih]

theorem flatten_range_add {γ : Type} (a b : ℕ) (f : ℕ → List γ) :
    ((List.range (a + b)).map f).flatten
      = ((List.range a).map f).flatten
        ++ ((List.range b).map fun t => f (a + t)).flatten := by
  rw [List.range_add, List.map_append, List.flatten_append, List.map_map]
  rfl

theorem tcols_take (X : List (List Obj)) (j : ℕ) (hj : j ≤ ncolsO X) :
    (tcols X).take j = (List.range j).map (colVals X) := by
  unfold tcols
  rw [← List.map_take, List.take_range]
  rw [min_eq_left hj]

theorem tcols_drop (X : List (List Obj)) (j : ℕ) (hj : j + 1 ≤ ncolsO X) :
    (tcols X).drop (j + 1)
      = (List.range (ncolsO X - (j + 1))).map fun t => colVals X (j + 1 + t) := by
  unfold tcols
  rw [← List.map_drop]
  have hsplit : List.range (ncolsO X)
      = List.range (j + 1) ++ (List.range (ncolsO X - (j + 1))).map fun x => (j + 1) + x := by
    have hm : ncolsO X = (j + 1) + (ncolsO X - (j + 1)) := by omega
    conv_lhs => rw [hm]
    rw [List.range_add]
  rw [hsplit, List.drop_left' (by simp), List.map_map]
  rfl

theorem range_map_colVals_mid (X : List (List Obj)) (d : Bool) (j : ℕ)
    (hrect : ∀ r ∈ X, r.length = ncolsO X) (hj : j < ncolsO X) :
    (List.range (uniqList X d j).length).map (fun t => colVals (spliceAt X d j) (j + t))
      = indicatorGroup X d j := by
  unfold indicatorGroup
  rw [← map_range_getD (uniqList X d j) d0
    (fun v => (colVals X j).map fun e => if e = v then Obj.num 1 else Obj.num 0)]
  apply List.map_congr_left
  intro t ht
  exact colVals_spliceAt_mid X d j t hrect hj (List.mem_range.mp ht)

theorem tcols_spliceAt (X : List (List Obj)) (d : Bool) (j : ℕ)
    (hX : X ≠ []) (hrect : ∀ r ∈ X, r.length = ncolsO X) (hj : j < ncolsO X) :
    tcols (spliceAt X d j)
      = (tcols X).take j ++ indicatorGroup X d j ++ (tcols X).drop (j + 1) := by
  have hL : tcols (spliceAt X d j)
      = (List.range (ncolsO X - 1 + (uniqList X d j).length)).map
          (colVals (spliceAt X d j)) := by
    unfold tcols
    rw [ncolsO_spliceAt X d j hX hrect hj]
  have hm1 : ncolsO X - 1 + (uniqList X d j).length
      = j + ((uniqList X d j).length + (ncolsO X - 1 - j)) := by omega
  rw [hL, hm1, List.range_add, List.map_append, List.map_map, List.range_add,
    List.map_append, List.map_map]
  have e1 : (List.range j).map (colVals (spliceAt X d j))
      = (tcols X).take j := by
    rw [tcols_take X j (le_of_lt hj)]
    apply List.map_congr_left
    intro t ht
    exact colVals_spliceAt_lt X d j t hrect hj (List.mem_range.mp ht)
  have e2 : (List.range (uniqList X d j).length).map
        (colVals (spliceAt X d j) ∘ fun x => j + x)
      = indicatorGroup X d j := by
    rw [← range_map_colVals_mid X d j hrect hj]
    rfl
  have e3 : (List.range (ncolsO X - 1 - j)).map
        ((colVals (spliceAt X d j) ∘ fun x => j + x) ∘ fun x => (uniqList X d j).length + x)
      = (tcols X).drop (j + 1) := by
    rw [tcols_drop X j hj]
    have hKeq : ncolsO X - 1 - j = ncolsO X - (j + 1) := by omega
    rw [hKeq]
    apply List.map_congr_left
    intro t _
    show colVals (spliceAt X d j) (j + ((uniqList X d j).length + t)) = colVals X (j + 1 + t)
    rw [← colVals_spliceAt_right X d j t hrect hj]
    congr 1
    omega
  rw [e1, e2, e3, List.append_assoc]

theorem specCols_spliceAt (X : List (List Obj)) (d : Bool) (j : ℕ) (rest : List ℤ)
    (hX : X ≠ []) (hrect : ∀ r ∈ X, r.length = ncolsO X) (hj : j < ncolsO X)
    (hrest : ∀ x ∈ rest, 0 ≤ x ∧ x < (j : ℤ)) :
    specCols (spliceAt X d j) rest d = specCols X ((j : ℤ) :: rest) d := by
  have hm1 : ncolsO X - 1 + (uniqList X d j).length
      = j + ((uniqList X d j).length + (ncolsO X - 1 - j)) := by omega
  have hm2 : ncolsO X = j + (1 + (ncolsO X - 1 - j)) := by omega
  unfold specCols
  conv_lhs => rw [ncolsO_spliceAt X d j hX hrect hj, hm1]
  conv_rhs => rw [hm2]
  rw [flatten_range_add j ((uniqList X d j).length + (ncolsO X - 1 - j)),
    flatten_range_add (uniqList X d j).length (ncolsO X - 1 - j),
    flatten_range_add j (1 + (ncolsO X - 1 - j)),
    flatten_range_add 1 (ncolsO X - 1 - j)]
  have e1 : ((List.range j).map fun (t : ℕ) =>
        if (t : ℤ) ∈ rest then indicatorGroup (spliceAt X d j) d t
        else [colVals (spliceAt X d j) t]).flatten
      = ((List.range j).map fun (t : ℕ) =>
        if (t : ℤ) ∈ (j : ℤ) :: rest then indicatorGroup X d t
        else [colVals X t]).flatten := by
    apply congrArg List.flatten
    apply List.map_congr_left
    intro t ht
    have ht' : t < j := List.mem_range.mp ht
    have hcv : colVals (spliceAt X d j) t = colVals X t :=
      colVals_spliceAt_lt X d j t hrect hj ht'
    have hiff : ((t : ℤ) ∈ rest) ↔ ((t : ℤ) ∈ (j : ℤ) :: rest) := by
      rw [List.mem_cons]
      constructor
      · exact fun h => Or.inr h
      · rintro (h | h)
        · exfalso
          have : t = j := by exact_mod_cast h
          omega
        · exact h
    refine if_congr hiff ?_ ?_
    · unfold indicatorGroup uniqList
      rw [hcv]
    · rw [hcv]
  have e2 : ((List.range (uniqList X d j).length).map fun (t : ℕ) =>
        if ((j + t : ℕ) : ℤ) ∈ rest then indicatorGroup (spliceAt X d j) d (j + t)
        else [colVals (spliceAt X d j) (j + t)]).flatten
      = indicatorGroup X d j := by
    have hmem : ∀ t : ℕ, ((j + t : ℕ) : ℤ) ∉ rest := by
      intro t hmem
      have := (hrest _ hmem).2
      push_cast at this
      omega
    have : ((List.range (uniqList X d j).length).map fun (t : ℕ) =>
        if ((j + t : ℕ) : ℤ) ∈ rest then indicatorGroup (spliceAt X d j) d (j + t)
        else [colVals (spliceAt X d j) (j + t)])
        = (List.range (uniqList X d j).length).map fun (t : ℕ) =>
            [colVals (spliceAt X d j) (j + t)] := by
      apply List.map_congr_left
      intro t _
      rw [if_neg (hmem t)]
    rw [this, flatten_map_singleton, range_map_colVals_mid X d j hrect hj]
  have e2' : ((List.range 1).map fun (t : ℕ) =>
        if ((j + t : ℕ) : ℤ) ∈ (j : ℤ) :: rest then indicatorGroup X d (j + t)
        else [colVals X (j + t)]).flatten
      = indicatorGroup X d j := by
    rw [show List.range 1 = [0] from rfl]
    simp only [List.map_cons, List.map_nil, List.flatten]
    rw [if_pos (by simp : ((j + 0 : ℕ) : ℤ) ∈ (j : ℤ) :: rest)]
    simp
  have e3 : ((List.range (ncolsO X - 1 - j)).map fun (t : ℕ) =>
        if ((j + ((uniqList X d j).length + t) : ℕ) : ℤ) ∈ rest
        then indicatorGroup (spliceAt X d j) d (j + ((uniqList X d j).length + t))
        else [colVals (spliceAt X d j) (j + ((uniqList X d j).length + t))]).flatten
      = ((List.range (ncolsO X - 1 - j)).map fun (t : ℕ) =>
        if ((j + (1 + t) : ℕ) : ℤ) ∈ (j : ℤ) :: rest then indicatorGroup X d (j + (1 + t))
        else [colVals X (j + (1 + t))]).flatten := by
    apply congrArg List.flatten
    apply List.map_congr_left
    intro t _
    have hnotL : ((j + ((uniqList X d j).length + t) : ℕ) : ℤ) ∉ rest := by
      intro hmem
      have := (hrest _ hmem).2
      push_cast at this
      omega
    have hnotR : ((j + (1 + t) : ℕ) : ℤ) ∉ (j : ℤ) :: rest := by
      intro hmem
      rcases List.mem_cons.mp hmem with h | h
      · have : j + (1 + t) = j := by exact_mod_cast h
        omega
      · have := (hrest _ h).2
        push_cast at this
        omega
    rw [if_neg hnotL, if_neg hnotR]
    have hcv : colVals (spliceAt X d j) (j + ((uniqList X d j).length + t))
        = colVals X (j + (1 + t)) := by
      have h1 : j + ((uniqList X d j).length + t) = j + (uniqList X d j).length + t := by
        omega
      have h2 : j + (1 + t) = j + 1 + t := by omega
      rw [h1, h2]
      exact colVals_spliceAt_right X d j t hrect hj
    rw [hcv]
  rw [e1, e2, e2', e3]

theorem fold_spec (d : Bool) : ∀ (l : List ℤ) (X : List (List Obj)),
    X ≠ [] → (∀ r ∈ X, r.length = ncolsO X) →
    (∀ x ∈ l, 0 ≤ x ∧ x < (ncolsO X : ℤ)) →
    List.Sorted descZ l → l.Nodup →
    ∃ X1, l.foldlM (fun T index => encodeStep d T index) X = .ok X1
      ∧ X1.length = X.length ∧ (∀ r ∈ X1, r.length = ncolsO X1)
      ∧ tcols X1 = specCols X l d := by
  intro l
  induction l with
  | nil =>
    intro X _ hrect _ _ _
    refine ⟨X, rfl, rfl, hrect, ?_⟩
    unfold specCols
    have hno : ((List.range (ncolsO X)).map fun (t : ℕ) =>
        if (t : ℤ) ∈ ([] : List ℤ) then indicatorGroup X d t else [colVals X t])
        = (List.range (ncolsO X)).map fun (t : ℕ) => [colVals X t] := by
      apply List.map_congr_left
      intro t _
      rw [if_neg (List.not_mem_nil _)]
    rw [hno, flatten_map_singleton]
    rfl
  | cons i t ih =>
    intro X hX hrect hvalid hsort hnodup
    obtain ⟨hi0, hilt⟩ := hvalid i (List.mem_cons_self i t)
    have hij : ((i.toNat : ℕ) : ℤ) = i := Int.toNat_of_nonneg hi0
    have hjlt : i.toNat < ncolsO X := by
      have h' : ((i.toNat : ℕ) : ℤ) < (ncolsO X : ℤ) := hij ▸ hilt
      exact_mod_cast h'
    rw [List.foldlM_cons]
    have hstep : encodeStep d X i = .ok (spliceAt X d i.toNat) := by
      rw [← hij]
      exact encodeStep_splice d X i.toNat hrect hjlt
    rw [hstep, exceptBind_ok]
    have hX1ne := spliceAt_ne_nil X d i.toNat hX
    have hX1rect := spliceAt_rect X d i.toNat hX hrect hjlt
    have hX1cols := ncolsO_spliceAt X d i.toNat hX hrect hjlt
    have hrest : ∀ x ∈ t, 0 ≤ x ∧ x < ((i.toNat : ℕ) : ℤ) := by
      intro x hx
      refine ⟨(hvalid x (List.mem_cons_of_mem _ hx)).1, ?_⟩
      have hxle : x ≤ i := (List.pairwise_cons.mp hsort).1 x hx
      have hxne : x ≠ i := by
        rintro rfl
        exact (List.nodup_cons.mp hnodup).1 hx
      omega
    have hvalid1 : ∀ x ∈ t, 0 ≤ x ∧ x < (ncolsO (spliceAt X d i.toNat) : ℤ) := by
      intro x hx
      obtain ⟨h1, h2⟩ := hrest x hx
      refine ⟨h1, ?_⟩
      have hle : i.toNat ≤ ncolsO (spliceAt X d i.toNat) := by
        rw [hX1cols]
        omega
      have hle' : ((i.toNat : ℕ) : ℤ) ≤ (ncolsO (spliceAt X d i.toNat) : ℤ) := by
        exact_mod_cast hle
      omega
    obtain ⟨X2, hfold2, hlen2, hrect2, hcols2⟩ :=
      ih (spliceAt X d i.toNat) hX1ne hX1rect hvalid1
        (List.pairwise_cons.mp hsort).2 (List.nodup_cons.mp hnodup).2
    refine ⟨X2, hfold2, ?_, hrect2, ?_⟩
    · rw [hlen2, spliceAt_length]
    · rw [hcols2, specCols_spliceAt X d i.toNat t hX hrect hjlt hrest, hij]

/-- Claim C4: for valid, duplicate-free categorical indices,
`one_hot_encode` returns a new table (the input is a value and is never
mutated) whose columns are exactly the spec layout `specCols`: every
non-categorical column keeps its original cells and relative order, and
each indicator group sits exactly at its original column's position. -/
theorem claim_C4 (X : List (List Obj)) (categorical_indices : List ℤ) (d : Bool)
    (hX : X ≠ []) (hrect : ∀ r ∈ X, r.length = ncolsO X)
    (hvalid : ∀ x ∈ categorical_indices, 0 ≤ x ∧ x < (ncolsO X : ℤ))
    (hnodup : categorical_indices.Nodup) :
    ∃ X1, one_hot_encode X categorical_indices d = .ok X1
      ∧ X1.length = X.length ∧ (∀ r ∈ X1, r.length = ncolsO X1)
      ∧ tcols X1 = specCols X categorical_indices d := by
  have hperm := List.perm_insertionSort descZ categorical_indices
  obtain ⟨X1, hfold, hlen, hrect1, hcols⟩ :=
    fold_spec d (categorical_indices.insertionSort descZ) X hX hrect
      (fun x hx => hvalid x (hperm.mem_iff.mp hx))
      (List.sorted_insertionSort descZ _) (hperm.nodup_iff.mpr hnodup)
  refine ⟨X1, hfold, hlen, hrect1, ?_⟩
  rw [hcols]
  unfold specCols
  apply congrArg List.flatten
  apply List.map_congr_left
  intro tt _
  exact if_congr hperm.mem_iff rfl rfl

theorem claim_C4_witness :
    (([[Obj.num 1], [Obj.num 2]] : List (List Obj)) ≠ []
      ∧ (∀ r ∈ [[Obj.num 1], [Obj.num 2]], r.length = ncolsO [[Obj.num 1], [Obj.num 2]])
      ∧ (∀ x ∈ [(0:ℤ)], 0 ≤ x ∧ x < (ncolsO [[Obj.num 1], [Obj.num 2]] : ℤ))
      ∧ ([(0:ℤ)]).Nodup)
    ∧ (∃ X1, one_hot_encode [[Obj.num 1], [Obj.num 2]] [(0:ℤ)] false = .ok X1
        ∧ X1.length = [[Obj.num 1], [Obj.num 2]].length
        ∧ (∀ r ∈ X1, r.length = ncolsO X1)
        ∧ tcols X1 = specCols [[Obj.num 1], [Obj.num 2]] [(0:ℤ)] false) :=
  ⟨⟨by decide, by decide, by decide, by decide⟩,
   claim_C4 [[Obj.num 1], [Obj.num 2]] [(0:ℤ)] false
     (by decide) (by decide) (by decide) (by decide)⟩
